import Mathlib

/-!
Shallow embedding of the metric-learning training script (train.py) of the
repository, together with proofs of the behavioural claims about it.

Numeric values (Python floats) are modelled as rationals; fallible Python
operations (those that can raise, such as a division by zero inside
AverageMeter.update) are modelled with Option.  The hard-negative sampler
lives in the module hard_mining, which is not part of the repository
sources; it is modelled from the specification text (section 4.1), as
marked on each of its definitions.
-/

/-! ## AverageMeter (train.py, lines 290-305) -/

/-- State of AverageMeter: last value, running average, running sum,
running count, exactly the four attributes set by the Python class. -/
structure AverageMeter where
  val : ℚ
  avg : ℚ
  sum : ℚ
  count : ℚ
  deriving DecidableEq, Repr

/-- Embedding of AverageMeter.reset: sets all four attributes to 0,
regardless of the previous state. -/
def AverageMeter.reset (_m : AverageMeter) : AverageMeter :=
  { val := 0, avg := 0, sum := 0, count := 0 }

/-- Embedding of AverageMeter.__init__, which just calls reset. -/
def AverageMeter.initial : AverageMeter :=
  AverageMeter.reset { val := 0, avg := 0, sum := 0, count := 0 }

/-- Embedding of AverageMeter.update(val, n): val := v; sum += v*n;
count += n; avg := sum/count.  The final assignment divides by the new
count, so the Python code raises ZeroDivisionError exactly when the new
count is zero; this failure is modelled by none. -/
def AverageMeter.update (m : AverageMeter) (v : ℚ) (n : ℚ) : Option AverageMeter :=
  let s := m.sum + v * n
  let c := m.count + n
  if c = 0 then none
  else some { val := v, avg := s / c, sum := s, count := c }

/-- Reading the avg attribute of a meter.  Python attribute access always
succeeds and returns the stored value, so this is total. -/
def AverageMeter.queryAvg (m : AverageMeter) : Option ℚ :=
  some m.avg

/-- Running a sequence of update calls, propagating a ZeroDivisionError. -/
def AverageMeter.updateSeq (m : AverageMeter) (us : List (ℚ × ℚ)) : Option AverageMeter :=
  us.foldlM (fun acc vw => acc.update vw.1 vw.2) m

/-! ## LossAccuracy (train.py, lines 307-310) -/

/-- Embedding of LossAccuracy(dista, distb): with margin = 0, counts the
entries of dista - distb - margin that are strictly positive and divides
by the batch size dista.size()[0]. -/
def LossAccuracy (dista distb : List ℚ) : ℚ :=
  let margin : ℚ := 0
  let pred := List.zipWith (fun a b => a - b - margin) dista distb
  ((pred.countP (fun p => decide (0 < p))) : ℚ) / (dista.length : ℚ)

/-! ## Sampler capacity (train.py, lines 77 and 155-156) -/

/-- Module-level constant hard_frac = 0.5. -/
def hard_frac : ℚ := 1 / 2

/-- Embedding of the capacity argument passed to the sampler constructor:
int((hard_frac + hard_frac/2) * args.batch_size).  The float product is
exact here and nonnegative, so Python int() truncation is the floor. -/
def capacityPerClass (batchSize : ℕ) : ℤ :=
  Int.floor ((hard_frac + hard_frac / 2) * (batchSize : ℚ))

/-- Reading of the same quantity following the specification text, which
says the capacity is round((hard_frac + hard_frac/2) * batch_size). -/
def capacityPerClassSpec (batchSize : ℕ) : ℤ :=
  round ((hard_frac + hard_frac / 2) * (batchSize : ℚ))

/-! ## Checkpointing (train.py, lines 163-173 and 280-288) -/

/-- Filesystem effects of SaveCheckpoint: the unconditional torch.save of
the checkpoint file and the conditional copy to model_best.pth.tar.
Directory creation is elided. -/
inductive FsAction where
  | save
  | copyBest
  deriving DecidableEq, Repr

/-- Embedding of SaveCheckpoint(state, is_best): torch.save always runs,
shutil.copyfile to model_best.pth.tar runs only when is_best. -/
def SaveCheckpoint (isBest : Bool) : List FsAction :=
  [FsAction.save] ++ (if isBest then [FsAction.copyBest] else [])

/-- Embedding of one validation cycle of main (lines 163-173): given the
global best_acc and the measured accuracy, computes is_best = acc >
best_acc, the new best_acc = max(acc, best_acc), and the filesystem
actions of the SaveCheckpoint call. -/
def validationCycle (best acc : ℚ) : List FsAction × ℚ × Bool :=
  let isBest := decide (best < acc)
  (SaveCheckpoint isBest, (max acc best, isBest))

/-- One step of the best-accuracy tracking in main: the is_best flag and
the updated best_acc. -/
def bestAccStep (best acc : ℚ) : Bool × ℚ := (decide (best < acc), max acc best)

/-- Sequence of is_best flags over the validation accuracies of a run,
folded from the module-level initialization best_acc = 0 (line 68). -/
def isBestTrace (accs : List ℚ) : List Bool :=
  (accs.foldl
    (fun p acc => (p.1 ++ [(bestAccStep p.2 acc).1], (bestAccStep p.2 acc).2))
    (([] : List Bool), (0 : ℚ))).1

/-- Value of best_acc after a sequence of validation accuracies, starting
from the module-level initialization best_acc = 0. -/
def bestAfter (accs : List ℚ) : ℚ := accs.foldl (fun b a => max a b) 0

/-! ## Train and TestTriplets phases (train.py, lines 184-237 and 252-278) -/

/-- The three meters created at the top of Train (lines 185-187):
losses, loss_accs, emb_norms, each a freshly constructed AverageMeter. -/
def trainInitialMeters : AverageMeter × AverageMeter × AverageMeter :=
  (AverageMeter.initial, AverageMeter.initial, AverageMeter.initial)

/-- The two meters created at the top of TestTriplets (lines 253-254):
losses and accs, each a freshly constructed AverageMeter. -/
def testInitialMeters : AverageMeter × AverageMeter :=
  (AverageMeter.initial, AverageMeter.initial)

/-- Meter bookkeeping of Train over one epoch.  Each batch contributes
(loss_triplet, loss_acc, loss_embedd, n) where n = data1.size(0); the
code updates losses with loss_triplet, loss_accs with loss_acc and
emb_norms with loss_embedd/3, each weighted by n, and Train returns
loss_accs.avg.  Network evaluation and the optimizer step are external
and do not touch the meters. -/
def Train (batches : List (ℚ × ℚ × ℚ × ℚ)) : Option ℚ := do
  let final ← batches.foldlM
    (fun (ms : AverageMeter × AverageMeter × AverageMeter) b => do
      let losses ← ms.1.update b.1 b.2.2.2
      let lossAccs ← ms.2.1.update b.2.1 b.2.2.2
      let embNorms ← ms.2.2.update (b.2.2.1 / 3) b.2.2.2
      pure (losses, lossAccs, embNorms))
    trainInitialMeters
  pure final.2.1.avg

/-- Meter bookkeeping of TestTriplets over one validation pass.  Each
batch contributes (test_loss, acc, n); the code updates accs with acc and
losses with test_loss, each weighted by n, and returns accs.avg. -/
def TestTriplets (batches : List (ℚ × ℚ × ℚ)) : Option ℚ := do
  let final ← batches.foldlM
    (fun (ms : AverageMeter × AverageMeter) b => do
      let accs ← ms.2.update b.2.1 b.2.2
      let losses ← ms.1.update b.1 b.2.2
      pure (losses, accs))
    testInitialMeters
  pure final.2.avg

/-! ## MarginRankingLoss target construction (train.py, lines 198-205 and 264-269) -/

/-- Embedding of torch.nn.MarginRankingLoss with default mean reduction:
mean over the batch of max(0, -y*(x1 - x2) + margin). -/
def marginRankingLoss (margin : ℚ) (x1 x2 y : List ℚ) : ℚ :=
  let terms := List.zipWith (fun d t => max 0 (margin - t * d))
    (List.zipWith (fun a b => a - b) x1 x2) y
  terms.sum / (terms.length : ℚ)

/-- Target built in the Train batch loop (line 199):
torch.FloatTensor(dista.size()).fill_(1). -/
def trainTarget (n : ℕ) : List ℚ := List.replicate n 1

/-- Target built in the TestTriplets batch loop (line 265):
torch.FloatTensor(dista.size()).fill_(1). -/
def testTarget (n : ℕ) : List ℚ := List.replicate n 1

/-- Triplet loss computed in the Train batch loop: criterion applied to
dista, distb and the all-ones target of the size of dista. -/
def trainBatchLoss (margin : ℚ) (dista distb : List ℚ) : ℚ :=
  marginRankingLoss margin dista distb (trainTarget dista.length)

/-- Triplet loss computed in the TestTriplets batch loop: criterion
applied to dista, distb and the all-ones target of the size of dista. -/
def testBatchLoss (margin : ℚ) (dista distb : List ℚ) : ℚ :=
  marginRankingLoss margin dista distb (testTarget dista.length)

/-! ## Hard-negative sampler, modelled from the spec (section 4.1).
The module hard_mining is not part of the repository sources; only its
call sites in train.py are. -/

/-- Modelled from the spec: a hardest-record of the sampler holds the
triplet, its loss value (the hardness key) and its distance margin
dista - distb. -/
structure TripletRec where
  triplet : ℕ × ℕ × ℕ
  loss : ℚ
  margin : ℚ
  deriving DecidableEq, Repr

/-- Record a is at least as hard as record b. -/
abbrev hardGE (a b : TripletRec) : Prop := b.loss ≤ a.loss

/-- Record a is strictly harder than record b. -/
abbrev hardGT (a b : TripletRec) : Prop := b.loss < a.loss

/-- Insertion of a record into a list kept sorted by hardness
descending: the record goes in front of the first strictly less hard
entry, after any equally hard earlier entry (earlier-seen wins ties). -/
def insertDesc (r : TripletRec) : List TripletRec → List TripletRec
  | [] => [r]
  | x :: xs => if x.loss < r.loss then r :: x :: xs else x :: insertDesc r xs

/-- Modelled from the spec: bounded insertion into one per-class
collection.  Below capacity the record is inserted unconditionally; at
capacity it is inserted only if its hardness exceeds the currently
smallest retained hardness (the last entry of the descending list),
evicting that smallest entry. -/
def classInsert (cap : ℕ) (r : TripletRec) (l : List TripletRec) : List TripletRec :=
  if l.length < cap then insertDesc r l
  else
    (l.getLast?).elim l
      (fun m => if m.loss < r.loss then insertDesc r l.dropLast else l)

/-- Modelled from the spec: state of hard_mining.NHardestTripletSampler,
a per-class bounded collection of hardest records. -/
structure NHardestTripletSampler where
  numClasses : ℕ
  capacity : ℕ
  classes : ℕ → List TripletRec

/-- Modelled from the spec: Construct(num_classes, capacity_per_class)
with empty per-class collections; fails with ConfigurationError (none)
when either count is not positive. -/
def NHardestTripletSampler.construct (numClasses capacity : ℕ) :
    Option NHardestTripletSampler :=
  if 0 < numClasses ∧ 0 < capacity then
    some { numClasses := numClasses, capacity := capacity, classes := fun _ => [] }
  else none

/-- Modelled from the spec: SampleNegatives(dista, distb, loss_values,
idx).  Each batch item carries (dista_i, distb_i, loss_i, idx_i); its
hardness is the loss value, its stored margin is dista_i - distb_i, and
it is inserted into the collection of the class of its anchor index,
obtained through classOf. -/
def NHardestTripletSampler.SampleNegatives (s : NHardestTripletSampler)
    (classOf : ℕ × ℕ × ℕ → ℕ)
    (batch : List (ℚ × ℚ × ℚ × (ℕ × ℕ × ℕ))) : NHardestTripletSampler :=
  { s with
    classes := batch.foldl
      (fun f item =>
        Function.update f (classOf item.2.2.2)
          (classInsert s.capacity
            { triplet := item.2.2.2, loss := item.2.2.1, margin := item.1 - item.2.1 }
            (f (classOf item.2.2.2))))
      s.classes }

/-- Records built by SampleNegatives from the items of one batch. -/
def batchRecords (batch : List (ℚ × ℚ × ℚ × (ℕ × ℕ × ℕ))) : List TripletRec :=
  batch.map
    (fun item => { triplet := item.2.2.2, loss := item.2.2.1, margin := item.1 - item.2.1 })

/-- Modelled from the spec: Reset() clears all per-class collections. -/
def NHardestTripletSampler.Reset (s : NHardestTripletSampler) : NHardestTripletSampler :=
  { s with classes := fun _ => [] }

/-- Modelled from the spec: HardestForClass(class_id) returns the ordered
hardest-first snapshot for the class, failing with NotFoundError (none)
when class_id is outside the valid range. -/
def NHardestTripletSampler.HardestForClass (s : NHardestTripletSampler) (c : ℕ) :
    Option (List TripletRec) :=
  if c < s.numClasses then some (s.classes c) else none

/-! ## The epoch loop of main (train.py, lines 158-182) -/

/-- Observable events of one run of the epoch loop, with the sampler
state passed to the triplet regeneration recorded on the regenerate
event.  The sampler state type is abstract because training updates it
through the external network outputs. -/
inductive TrainEvent (σ : Type) where
  | train (epoch : ℕ)
  | validate (epoch : ℕ)
  | regenerate (epoch : ℕ) (samplerState : σ)
  | samplerReset (epoch : ℕ)
  deriving DecidableEq

/-- Boolean recognizer of train events. -/
def isTrainEv {σ : Type} : TrainEvent σ → Bool
  | TrainEvent.train _ => true
  | _ => false

/-- Embedding of the body of the for-loop of main, iterated over the
remaining number of epochs.  Per epoch e it runs Train (which feeds the
sampler through SampleNegatives, abstracted as trainUpd e), then a
validation pass iff e % val_freq == 0, then, iff e % triplet_freq == 0,
regenerate_triplet_list reading the current sampler state followed by
sampler.Reset(). -/
def mainLoop {σ : Type} (valFreq tripletFreq : ℕ) (trainUpd : ℕ → σ → σ)
    (rst : σ → σ) : ℕ → ℕ → σ → List (TrainEvent σ) × σ
  | _, 0, s => ([], s)
  | e, n + 1, s =>
      let s1 := trainUpd e s
      let evs := [TrainEvent.train e]
        ++ (if e % valFreq = 0 then [TrainEvent.validate e] else [])
        ++ (if e % tripletFreq = 0 then
              [TrainEvent.regenerate e s1, TrainEvent.samplerReset e] else [])
      let s2 := if e % tripletFreq = 0 then rst s1 else s1
      let rest := mainLoop valFreq tripletFreq trainUpd rst (e + 1) n s2
      (evs ++ rest.1, rest.2)

/-- The full run of the epoch loop: for epoch in range(1, epochs + 1). -/
def mainTrace {σ : Type} (epochs valFreq tripletFreq : ℕ) (trainUpd : ℕ → σ → σ)
    (rst : σ → σ) (s0 : σ) : List (TrainEvent σ) × σ :=
  mainLoop valFreq tripletFreq trainUpd rst 1 epochs s0

/-- Sampler state after k epochs of the loop have completed, starting at
epoch e0 with state s: each epoch applies the training update and, at
multiples of triplet_freq, the reset. -/
def runEpochs {σ : Type} (tripletFreq : ℕ) (trainUpd : ℕ → σ → σ) (rst : σ → σ)
    (e0 : ℕ) (s : σ) : ℕ → σ
  | 0 => s
  | k + 1 =>
      let s1 := trainUpd (e0 + k) (runEpochs tripletFreq trainUpd rst e0 s k)
      if (e0 + k) % tripletFreq = 0 then rst s1 else s1

/-- Closed-form description of the events of epoch e of a run started at
epoch 1 with state s0: the train pass, the conditional validation, and
the conditional regeneration (reading the sampler state accumulated
through epoch e) immediately followed by the sampler reset. -/
def epochBlock {σ : Type} (valFreq tripletFreq : ℕ) (trainUpd : ℕ → σ → σ)
    (rst : σ → σ) (s0 : σ) (e : ℕ) : List (TrainEvent σ) :=
  [TrainEvent.train e]
    ++ (if e % valFreq = 0 then [TrainEvent.validate e] else [])
    ++ (if e % tripletFreq = 0 then
          [TrainEvent.regenerate e
             (trainUpd e (runEpochs tripletFreq trainUpd rst 1 s0 (e - 1))),
           TrainEvent.samplerReset e] else [])

/-! ## Helper aggregates for meter update sequences -/

/-- Total weight of a sequence of (value, weight) update calls. -/
def weightSum (us : List (ℚ × ℚ)) : ℚ := (us.map (fun p => p.2)).sum

/-- Total weighted value of a sequence of (value, weight) update calls. -/
def weightedSum (us : List (ℚ × ℚ)) : ℚ := (us.map (fun p => p.1 * p.2)).sum

/-! # Theorems -/

/-- C2, counterexample: at batch_size = 2, the constructed capacity is
int(0.75 * 2) = 1, while the rounded value claimed by the spec is
round(1.5) = 2, so the claim fails. -/
theorem C2_counterexample :
    capacityPerClass 2 = 1 ∧ capacityPerClassSpec 2 = 2 ∧
      capacityPerClass 2 ≠ capacityPerClassSpec 2 := by
  have h : (hard_frac + hard_frac / 2) * ((2 : ℕ) : ℚ) = 3 / 2 := by
    unfold hard_frac
    norm_num
  have h1 : capacityPerClass 2 = 1 := by
    unfold capacityPerClass
    rw [h]
    norm_num
  have h2 : capacityPerClassSpec 2 = 2 := by
    unfold capacityPerClassSpec
    rw [h, round_eq]
    norm_num
  exact ⟨h1, h2, by rw [h1, h2]; decide⟩

/-- C2, amended: the capacity passed at construction is the value of
(hard_frac + hard_frac/2) * batch_size = 0.75 * batch_size truncated
toward zero (Python int()), i.e. 3 * batch_size / 4 rounded down, not
rounded to nearest. -/
theorem C2_capacity_is_truncation (b : ℕ) :
    capacityPerClass b = ((3 * b) / 4 : ℕ) := by
  unfold capacityPerClass hard_frac
  have h : (1 / 2 + (1 / 2) / 2 : ℚ) * (b : ℚ) = ((3 * b : ℕ) : ℚ) / ((4 : ℕ) : ℚ) := by
    push_cast
    ring
  rw [h, ← Int.natCast_floor_eq_floor (by positivity), Nat.floor_div_eq_div]

/-- C2, witness for the amended theorem at batch_size = 2. -/
theorem C2_capacity_is_truncation_witness :
    capacityPerClass 2 = ((3 * 2) / 4 : ℕ) :=
  C2_capacity_is_truncation 2

/-- Helper: when every anchor-negative distance strictly exceeds the
anchor-positive one, every entry of the prediction vector is counted. -/
theorem countP_pred_eq_length_of_all_gt {dista distb : List ℚ}
    (h : List.Forall₂ (fun a b => b < a) dista distb) :
    (List.zipWith (fun a b => a - b - 0) dista distb).countP
      (fun p => decide (0 < p)) = dista.length := by
  simp only [sub_zero]
  induction h with
  | nil => simp
  | @cons a b l1 l2 hab _ ih =>
      rw [List.zipWith_cons_cons, List.countP_cons]
      have hd : (0 : ℚ) < a - b := sub_pos.mpr hab
      simp [ih, hd]

/-- Helper: when no anchor-negative distance strictly exceeds the
anchor-positive one, no entry of the prediction vector is counted. -/
theorem countP_pred_eq_zero_of_all_le {dista distb : List ℚ}
    (h : List.Forall₂ (fun a b => a ≤ b) dista distb) :
    (List.zipWith (fun a b => a - b - 0) dista distb).countP
      (fun p => decide (0 < p)) = 0 := by
  simp only [sub_zero]
  induction h with
  | nil => simp
  | @cons a b l1 l2 hab _ ih =>
      rw [List.zipWith_cons_cons, List.countP_cons]
      have hd : ¬ ((0 : ℚ) < a - b) := by
        simpa [sub_pos] using not_lt.mpr hab
      simp [ih, hd]

/-- C3: on equal-length nonempty distance vectors, LossAccuracy is the
fraction of entries with dista - distb - margin > 0 (margin = 0), lies in
the interval from 0 to 1, equals 1 when every dista exceeds distb + margin
and equals 0 when every dista is at most distb + margin. -/
theorem C3_LossAccuracy_fraction (dista distb : List ℚ)
    (hlen : dista.length = distb.length) (hpos : 0 < dista.length) :
    LossAccuracy dista distb =
      ((List.zipWith (fun a b => a - b - 0) dista distb).countP
        (fun p => decide (0 < p)) : ℚ) / (dista.length : ℚ) ∧
    0 ≤ LossAccuracy dista distb ∧ LossAccuracy dista distb ≤ 1 ∧
    (List.Forall₂ (fun a b => b < a) dista distb → LossAccuracy dista distb = 1) ∧
    (List.Forall₂ (fun a b => a ≤ b) dista distb → LossAccuracy dista distb = 0) := by
  have hfrac : LossAccuracy dista distb =
      ((List.zipWith (fun a b => a - b - 0) dista distb).countP
        (fun p => decide (0 < p)) : ℚ) / (dista.length : ℚ) := rfl
  have hlenpos : (0 : ℚ) < (dista.length : ℚ) := by exact_mod_cast hpos
  have hcount : (List.zipWith (fun a b => a - b - 0) dista distb).countP
      (fun p => decide (0 < p)) ≤ dista.length := by
    have h1 : (List.zipWith (fun a b => a - b - 0) dista distb).countP
        (fun p => decide (0 < p)) ≤ (List.zipWith (fun a b => a - b - 0) dista distb).length :=
      List.countP_le_length _
    have h2 : (List.zipWith (fun a b => a - b - 0) dista distb).length = dista.length := by
      rw [List.length_zipWith, hlen, min_self]
    omega
  refine ⟨hfrac, ?_, ?_, ?_, ?_⟩
  · rw [hfrac]
    positivity
  · rw [hfrac, div_le_one hlenpos]
    exact_mod_cast hcount
  · intro hall
    rw [hfrac, countP_pred_eq_length_of_all_gt hall, div_self (ne_of_gt hlenpos)]
  · intro hall
    rw [hfrac, countP_pred_eq_zero_of_all_le hall]
    simp

/-- C3, witness: concrete instance dista = [2, 0], distb = [1, 1]. -/
theorem C3_LossAccuracy_fraction_witness :
    0 ≤ LossAccuracy [2, 0] [1, 1] ∧ LossAccuracy [2, 0] [1, 1] ≤ 1 :=
  ⟨(C3_LossAccuracy_fraction [2, 0] [1, 1] rfl (by decide)).2.1,
   (C3_LossAccuracy_fraction [2, 0] [1, 1] rfl (by decide)).2.2.1⟩

/-- C4, counterexample: Reset() followed by Update(5, 0) does not yield
average == 5; the update raises ZeroDivisionError (count becomes 0), so
the claim fails for weight 0. -/
theorem C4_counterexample :
    AverageMeter.initial.update 5 0 = none ∧
    ¬ ∃ m2, AverageMeter.initial.update 5 0 = some m2 ∧ m2.avg = 5 := by
  have h : AverageMeter.initial.update 5 0 = none := by
    simp [AverageMeter.initial, AverageMeter.reset, AverageMeter.update]
  refine ⟨h, ?_⟩
  rintro ⟨m2, hm, -⟩
  rw [h] at hm
  exact Option.noConfusion hm

/-- Helper: running a nonempty sequence of updates whose partial weight
sums (offset by the incoming count) never vanish produces the meter whose
last value is the final value, whose sum and count are the accumulated
weighted sums, and whose average is their quotient. -/
theorem updateSeq_append_last :
    ∀ (pre : List (ℚ × ℚ)) (m : AverageMeter) (v w : ℚ),
      (∀ k, 0 < k → k ≤ (pre ++ [(v, w)]).length →
        m.count + weightSum ((pre ++ [(v, w)]).take k) ≠ 0) →
      m.updateSeq (pre ++ [(v, w)]) =
        some { val := v,
               avg := (m.sum + weightedSum (pre ++ [(v, w)])) /
                      (m.count + weightSum (pre ++ [(v, w)])),
               sum := m.sum + weightedSum (pre ++ [(v, w)]),
               count := m.count + weightSum (pre ++ [(v, w)]) }
  | [], m, v, w, h => by
      have hw : m.count + w ≠ 0 := by
        have := h 1 (by omega) (by simp)
        simpa [weightSum] using this
      simp [AverageMeter.updateSeq, AverageMeter.update, weightSum, weightedSum, hw]
  | (v0, w0) :: pre, m, v, w, h => by
      have hw0 : m.count + w0 ≠ 0 := by
        have := h 1 (by omega) (by simp)
        simpa [weightSum] using this
      have hstep : m.update v0 w0 =
          some { val := v0, avg := (m.sum + v0 * w0) / (m.count + w0),
                 sum := m.sum + v0 * w0, count := m.count + w0 } := by
        simp [AverageMeter.update, hw0]
      have hrest := updateSeq_append_last pre
        { val := v0, avg := (m.sum + v0 * w0) / (m.count + w0),
          sum := m.sum + v0 * w0, count := m.count + w0 } v w
        (by
          intro k hk hk2
          have hk3 : k + 1 ≤ (((v0, w0) :: pre) ++ [(v, w)]).length := by
            simp only [List.cons_append, List.length_cons, List.length_append,
              List.length_singleton] at hk2 ⊢
            omega
          have := h (k + 1) (by omega) hk3
          simpa [weightSum, add_assoc] using this)
      have hfold : m.updateSeq (((v0, w0) :: pre) ++ [(v, w)]) =
          (m.update v0 w0).bind (fun m1 => m1.updateSeq (pre ++ [(v, w)])) := by
        simp [AverageMeter.updateSeq]
      rw [hfold, hstep, Option.some_bind, hrest]
      simp [weightSum, weightedSum, add_assoc]

/-- C4, amended: for every sequence of updates following a reset in which
no partial weight sum vanishes (so no update divides by zero), after each
update the last value is the most recent value, sum is the accumulated
value*weight, count is the accumulated weight and average is sum/count;
in particular Reset() followed by Update(v, w) for any nonzero weight w
yields average == v.  (The original claim fails for weight 0, which makes
the update raise ZeroDivisionError.) -/
theorem C4_meter_running_average :
    (∀ (pre : List (ℚ × ℚ)) (v w : ℚ),
      (∀ k, 0 < k → k ≤ (pre ++ [(v, w)]).length →
        weightSum ((pre ++ [(v, w)]).take k) ≠ 0) →
      AverageMeter.initial.updateSeq (pre ++ [(v, w)]) =
        some { val := v,
               avg := weightedSum (pre ++ [(v, w)]) / weightSum (pre ++ [(v, w)]),
               sum := weightedSum (pre ++ [(v, w)]),
               count := weightSum (pre ++ [(v, w)]) }) ∧
    (∀ v w : ℚ, w ≠ 0 →
      ∃ m2, AverageMeter.initial.update v w = some m2 ∧ m2.avg = v) := by
  constructor
  · intro pre v w h
    have := updateSeq_append_last pre AverageMeter.initial v w
      (by
        intro k hk hk2
        have := h k hk hk2
        simpa [AverageMeter.initial, AverageMeter.reset] using this)
    simpa [AverageMeter.initial, AverageMeter.reset] using this
  · intro v w hw
    refine ⟨{ val := v, avg := (0 + v * w) / (0 + w), sum := 0 + v * w,
              count := 0 + w }, ?_, ?_⟩
    · simp [AverageMeter.initial, AverageMeter.reset, AverageMeter.update, hw]
    · simp
      field_simp

/-- C4, witness: the sequence Update(1, 2); Update(3, 1) after a reset,
and a single Update(7, 2) after a reset. -/
theorem C4_meter_running_average_witness :
    AverageMeter.initial.updateSeq [((1 : ℚ), (2 : ℚ)), (3, 1)] =
      some { val := 3,
             avg := weightedSum [((1 : ℚ), (2 : ℚ)), (3, 1)] /
                    weightSum [((1 : ℚ), (2 : ℚ)), (3, 1)],
             sum := weightedSum [((1 : ℚ), (2 : ℚ)), (3, 1)],
             count := weightSum [((1 : ℚ), (2 : ℚ)), (3, 1)] } ∧
    ∃ m2, AverageMeter.initial.update 7 2 = some m2 ∧ m2.avg = 7 := by
  constructor
  · exact C4_meter_running_average.1 [(1, 2)] 3 1
      (by
        intro k hk hk2
        have hk3 : k ≤ 2 := by simpa using hk2
        interval_cases k <;> norm_num [weightSum])
  · exact C4_meter_running_average.2 7 2 (by norm_num)

/-- C5, counterexample: reading the avg attribute of a freshly
constructed meter (count = 0) succeeds and returns the stored 0; it does
not fail with a division error. -/
theorem C5_counterexample :
    AverageMeter.initial.queryAvg = some 0 ∧ AverageMeter.initial.queryAvg ≠ none := by
  refine ⟨rfl, ?_⟩
  simp [AverageMeter.queryAvg]

/-- C5, amended: querying the average before any update returns the
reset value 0 and never fails; the only failing operation of the tracker
is update, which divides by zero exactly when the count after the update
is zero. -/
theorem C5_failure_only_in_update :
    AverageMeter.initial.avg = 0 ∧
    (∀ m : AverageMeter, m.queryAvg = some m.avg ∧ m.queryAvg ≠ none) ∧
    (∀ (m : AverageMeter) (v n : ℚ), m.update v n = none ↔ m.count + n = 0) := by
  refine ⟨rfl, fun m => ⟨rfl, by simp [AverageMeter.queryAvg]⟩, fun m v n => ?_⟩
  unfold AverageMeter.update
  by_cases h : m.count + n = 0 <;> simp [h]

/-- C6, counterexample: on a validation cycle where the accuracy does not
improve (best_acc = 1, acc = 0), the checkpoint file is still saved, so
persistence does not occur exactly when the accuracy improves. -/
theorem C6_counterexample :
    FsAction.save ∈ (validationCycle 1 0).1 ∧ ¬ ((1 : ℚ) < 0) := by
  refine ⟨?_, ?_⟩ <;> decide

/-- C6, amended: the checkpoint is persisted on every validation cycle,
unconditionally; what happens exactly when the new accuracy exceeds the
previous best is the additional copy to model_best.pth.tar. -/
theorem C6_save_unconditional_copy_on_best (best acc : ℚ) :
    FsAction.save ∈ (validationCycle best acc).1 ∧
      (FsAction.copyBest ∈ (validationCycle best acc).1 ↔ best < acc) := by
  unfold validationCycle SaveCheckpoint
  by_cases h : best < acc <;> simp [h]

/-- Helper: the accumulated Boolean list of the is_best fold factors out
of the accumulator. -/
theorem isBestFold_fst (accs : List ℚ) :
    ∀ (l0 : List Bool) (b0 : ℚ),
      (accs.foldl
        (fun p acc => (p.1 ++ [(bestAccStep p.2 acc).1], (bestAccStep p.2 acc).2))
        (l0, b0)).1 =
      l0 ++ (accs.foldl
        (fun p acc => (p.1 ++ [(bestAccStep p.2 acc).1], (bestAccStep p.2 acc).2))
        (([] : List Bool), b0)).1 := by
  induction accs with
  | nil => simp
  | cons a t ih =>
      intro l0 b0
      simp only [List.foldl_cons]
      rw [ih, ih ([] ++ [(bestAccStep b0 a).1])]
      simp

/-- Helper: the running best of the is_best fold ignores the accumulated
Boolean list. -/
theorem isBestFold_snd (accs : List ℚ) :
    ∀ (l0 : List Bool) (b0 : ℚ),
      (accs.foldl
        (fun p acc => (p.1 ++ [(bestAccStep p.2 acc).1], (bestAccStep p.2 acc).2))
        (l0, b0)).2 =
      accs.foldl (fun b a => max a b) b0 := by
  induction accs with
  | nil => simp
  | cons a t ih =>
      intro l0 b0
      simp only [List.foldl_cons]
      rw [ih]
      rfl

/-- Helper: a strict upper bound on a running maximum bounds the seed and
every element. -/
theorem foldl_max_lt_iff (l : List ℚ) :
    ∀ (b a : ℚ), l.foldl (fun x y => max y x) b < a ↔ (b < a ∧ ∀ x ∈ l, x < a) := by
  induction l with
  | nil => simp
  | cons c t ih =>
      intro b a
      simp only [List.foldl_cons, ih, max_lt_iff, List.mem_cons]
      constructor
      · rintro ⟨⟨hc, hb⟩, ht⟩
        exact ⟨hb, fun x hx => by rcases hx with rfl | hx; exact hc; exact ht x hx⟩
      · rintro ⟨hb, ht⟩
        exact ⟨⟨ht c (Or.inl rfl), hb⟩, fun x hx => ht x (Or.inr hx)⟩

/-- Helper: the seed of a running maximum never exceeds the result. -/
theorem le_foldl_max (l : List ℚ) :
    ∀ b : ℚ, b ≤ l.foldl (fun x y => max y x) b := by
  induction l with
  | nil => simp
  | cons c t ih =>
      intro b
      simpa only [List.foldl_cons] using le_trans (le_max_right c b) (ih (max c b))

/-- C9, counterexample: on the run whose single validation accuracy is 0,
the accuracy strictly exceeds every previously recorded accuracy
(vacuously), yet is_best is false, because best_acc is initialized to 0
rather than to the minimum over previous accuracies. -/
theorem C9_counterexample :
    isBestTrace [(0 : ℚ)] ≠ [true] ∧ (∀ x ∈ (List.nil : List ℚ), x < (0 : ℚ)) := by
  constructor
  · simp [isBestTrace, bestAccStep]
  · intro x hx
    exact absurd hx (List.not_mem_nil x)

/-- C9, amended: the tracked best accuracy is monotonically non-decreasing
across validation cycles, each new cycle appends the flag
is_best = (best-so-far < acc), and that flag is true exactly when acc
strictly exceeds both 0 (the initialization of best_acc) and every
previously recorded validation accuracy. -/
theorem C9_best_monotone_isbest :
    (∀ xs ys : List ℚ, bestAfter xs ≤ bestAfter (xs ++ ys)) ∧
    (∀ (pre : List ℚ) (a : ℚ),
      isBestTrace (pre ++ [a]) = isBestTrace pre ++ [decide (bestAfter pre < a)]) ∧
    (∀ (pre : List ℚ) (a : ℚ),
      bestAfter pre < a ↔ (0 < a ∧ ∀ x ∈ pre, x < a)) := by
  refine ⟨?_, ?_, ?_⟩
  · intro xs ys
    unfold bestAfter
    rw [List.foldl_append]
    exact le_foldl_max ys _
  · intro pre a
    unfold isBestTrace
    rw [List.foldl_append]
    simp only [List.foldl_cons, List.foldl_nil]
    rw [isBestFold_snd]
    simp [bestAccStep, bestAfter]
  · intro pre a
    exact foldl_max_lt_iff pre 0 a

/-- Helper: unfolding equation of insertDesc on a nonempty collection. -/
theorem insertDesc_cons (r x : TripletRec) (xs : List TripletRec) :
    insertDesc r (x :: xs) =
      if x.loss < r.loss then r :: x :: xs else x :: insertDesc r xs := rfl

/-- Helper: insertion grows the collection by one record. -/
theorem length_insertDesc (r : TripletRec) :
    ∀ l : List TripletRec, (insertDesc r l).length = l.length + 1
  | [] => rfl
  | x :: xs => by
      by_cases h : x.loss < r.loss <;>
        simp [insertDesc, h, length_insertDesc r xs]

/-- Helper: insertion permutes the record onto the collection. -/
theorem perm_insertDesc (r : TripletRec) :
    ∀ l : List TripletRec, (insertDesc r l).Perm (r :: l)
  | [] => List.Perm.refl _
  | x :: xs => by
      by_cases h : x.loss < r.loss
      · simp [insertDesc, h]
      · simp only [insertDesc, if_neg h]
        exact ((perm_insertDesc r xs).cons x).trans (List.Perm.swap r x xs)

/-- Helper: insertion preserves the hardest-first ordering. -/
theorem sorted_insertDesc (r : TripletRec) :
    ∀ l : List TripletRec, List.Sorted hardGE l → List.Sorted hardGE (insertDesc r l)
  | [], _ => by simp [insertDesc]
  | x :: xs, h => by
      rw [List.sorted_cons] at h
      obtain ⟨hx, hxs⟩ := h
      by_cases hc : x.loss < r.loss
      · simp only [insertDesc, if_pos hc]
        rw [List.sorted_cons]
        refine ⟨?_, ?_⟩
        · intro b hb
          rcases List.mem_cons.mp hb with rfl | hb2
          · exact le_of_lt hc
          · exact le_trans (hx b hb2) (le_of_lt hc)
        · rw [List.sorted_cons]
          exact ⟨hx, hxs⟩
      · simp only [insertDesc, if_neg hc]
        rw [List.sorted_cons]
        refine ⟨?_, sorted_insertDesc r xs hxs⟩
        intro b hb
        have hb2 : b ∈ r :: xs := (perm_insertDesc r xs).mem_iff.mp hb
        rcases List.mem_cons.mp hb2 with rfl | hb3
        · exact not_lt.mp hc
        · exact hx b hb3

/-- Helper: a record no harder than every entry is inserted at the end. -/
theorem insertDesc_eq_append (r : TripletRec) :
    ∀ l : List TripletRec, (∀ x ∈ l, ¬ x.loss < r.loss) → insertDesc r l = l ++ [r]
  | [], _ => rfl
  | x :: xs, h => by
      simp only [insertDesc, if_neg (h x (List.mem_cons_self x xs))]
      rw [insertDesc_eq_append r xs (fun y hy => h y (List.mem_cons_of_mem x hy))]
      rfl

/-- Helper: when the new record is harder than the last entry, inserting
into the full list is inserting into its front part with the last entry
reattached. -/
theorem insertDesc_dropLast (r : TripletRec) :
    ∀ (l : List TripletRec) (m : TripletRec), l.getLast? = some m → m.loss < r.loss →
      insertDesc r l = insertDesc r l.dropLast ++ [m]
  | [], m, hm, _ => by simp at hm
  | [x], m, hm, hlt => by
      have hxm : x = m := by simpa using hm
      subst hxm
      simp [insertDesc, hlt]
  | x :: y :: t, m, hm, hlt => by
      have hm2 : (y :: t).getLast? = some m := by simpa using hm
      have hdrop : (x :: y :: t).dropLast = x :: (y :: t).dropLast := rfl
      have hrecon : (y :: t).dropLast ++ [m] = y :: t := by
        have hne : (y :: t) ≠ [] := List.cons_ne_nil y t
        have hgl := List.getLast?_eq_getLast (y :: t) hne
        rw [hgl] at hm2
        have hglm : (y :: t).getLast hne = m := Option.some.inj hm2
        rw [← hglm]
        exact List.dropLast_append_getLast hne
      by_cases hc : x.loss < r.loss
      · rw [hdrop, insertDesc_cons r x (y :: t), insertDesc_cons r x ((y :: t).dropLast),
          if_pos hc, if_pos hc, List.cons_append, List.cons_append, hrecon]
      · rw [hdrop, insertDesc_cons r x (y :: t), insertDesc_cons r x ((y :: t).dropLast),
          if_neg hc, if_neg hc, insertDesc_dropLast r (y :: t) m hm2 hlt,
          List.cons_append]

/-- Helper: in a hardest-first list the last entry is the least hard. -/
theorem sorted_last_le :
    ∀ (l : List TripletRec) (m : TripletRec), List.Sorted hardGE l →
      l.getLast? = some m → ∀ x ∈ l, m.loss ≤ x.loss
  | [], m, _, hm => by simp at hm
  | [x], m, _, hm => by
      have hxm : x = m := by simpa using hm
      subst hxm
      intro y hy
      have : y = x := by simpa using hy
      subst this
      exact le_refl _
  | x :: y :: t, m, hs, hm => by
      rw [List.sorted_cons] at hs
      obtain ⟨hx, hs2⟩ := hs
      have hm2 : (y :: t).getLast? = some m := by simpa using hm
      intro z hz
      rcases List.mem_cons.mp hz with rfl | hz2
      · have hne : (y :: t) ≠ [] := List.cons_ne_nil y t
        have hgl := List.getLast?_eq_getLast (y :: t) hne
        rw [hgl] at hm2
        have hglm : (y :: t).getLast hne = m := Option.some.inj hm2
        have hmmem : m ∈ y :: t := hglm ▸ List.getLast_mem hne
        exact hx m hmmem
      · exact sorted_last_le (y :: t) m hs2 hm2 z hz2

/-- Helper: bounded insertion never exceeds the capacity. -/
theorem classInsert_length_le (cap : ℕ) (r : TripletRec) (l : List TripletRec)
    (h : l.length ≤ cap) : (classInsert cap r l).length ≤ cap := by
  by_cases hlt : l.length < cap
  · rw [classInsert, if_pos hlt, length_insertDesc]
    omega
  · have hlen : l.length = cap := le_antisymm h (not_lt.mp hlt)
    cases hlast : l.getLast? with
    | none =>
        rw [classInsert, if_neg hlt, hlast, Option.elim_none]
        exact h
    | some m =>
        rw [classInsert, if_neg hlt, hlast, Option.elim_some]
        by_cases hc : m.loss < r.loss
        · rw [if_pos hc, length_insertDesc, List.length_dropLast]
          have hne : l ≠ [] := by
            intro he
            subst he
            simp at hlast
          have : 1 ≤ l.length := List.length_pos.mpr hne
          omega
        · rw [if_neg hc]
          omega

/-- Helper: on a sorted collection within capacity, bounded insertion is
plain insertion truncated to the capacity. -/
theorem classInsert_eq_take (cap : ℕ) (r : TripletRec) (l : List TripletRec)
    (hs : List.Sorted hardGE l) (h : l.length ≤ cap) :
    classInsert cap r l = (insertDesc r l).take cap := by
  by_cases hlt : l.length < cap
  · rw [classInsert, if_pos hlt, List.take_of_length_le]
    rw [length_insertDesc]
    omega
  · have hlen : l.length = cap := le_antisymm h (not_lt.mp hlt)
    cases hlast : l.getLast? with
    | none =>
        have hnil : l = [] := by
          cases l with
          | nil => rfl
          | cons a t => simp at hlast
        subst hnil
        simp at hlen
        subst hlen
        simp [classInsert]
    | some m =>
        rw [classInsert, if_neg hlt, hlast, Option.elim_some]
        by_cases hc : m.loss < r.loss
        · rw [if_pos hc, insertDesc_dropLast r l m hlast hc]
          have hne : l ≠ [] := by
            intro he
            subst he
            simp at hlast
          have hXlen : (insertDesc r l.dropLast).length = cap := by
            rw [length_insertDesc, List.length_dropLast]
            have : 1 ≤ l.length := List.length_pos.mpr hne
            omega
          rw [← hXlen, List.take_left]
        · rw [if_neg hc]
          have hall : ∀ x ∈ l, ¬ x.loss < r.loss := by
            intro x hx
            have h1 : m.loss ≤ x.loss := sorted_last_le l m hs hlast x hx
            have h2 : r.loss ≤ m.loss := not_lt.mp hc
            exact not_lt.mpr (le_trans h2 h1)
          rw [insertDesc_eq_append r l hall, ← hlen, List.take_left]

/-- Helper: equality of prefixes descends to shorter prefixes. -/
theorem take_eq_of_take_succ_eq {α : Type} {A B : List α} {n : ℕ}
    (h : A.take (n + 1) = B.take (n + 1)) : A.take n = B.take n := by
  have h2 := congrArg (List.take n) h
  rw [List.take_take, List.take_take, Nat.min_eq_left (Nat.le_succ n)] at h2
  exact h2

/-- Helper: the first cap entries after an insertion depend only on the
first cap entries before it. -/
theorem take_insertDesc_congr (r : TripletRec) :
    ∀ (cap : ℕ) (A B : List TripletRec), A.take cap = B.take cap →
      (insertDesc r A).take cap = (insertDesc r B).take cap
  | 0, _, _, _ => rfl
  | cap + 1, [], [], _ => rfl
  | cap + 1, [], b :: B, h => by simp at h
  | cap + 1, a :: A, [], h => by simp at h
  | cap + 1, a :: A, b :: B, h => by
      rw [List.take_succ_cons, List.take_succ_cons] at h
      obtain ⟨rfl, hAB⟩ : a = b ∧ A.take cap = B.take cap :=
        ⟨(List.cons.injEq _ _ _ _).mp h |>.1, (List.cons.injEq _ _ _ _).mp h |>.2⟩
      by_cases hc : a.loss < r.loss
      · simp only [insertDesc, if_pos hc, List.take_succ_cons]
        have h3 : (a :: A).take cap = (a :: B).take cap :=
          take_eq_of_take_succ_eq (by rw [List.take_succ_cons, List.take_succ_cons, hAB])
        rw [h3]
      · simp only [insertDesc, if_neg hc, List.take_succ_cons]
        rw [take_insertDesc_congr r cap A B hAB]

/-- Helper: the first cap entries of a fold of insertions depend only on
the first cap entries of the seed. -/
theorem take_foldl_insertDesc (cap : ℕ) :
    ∀ (rs : List TripletRec) (A B : List TripletRec), A.take cap = B.take cap →
      (rs.foldl (fun l x => insertDesc x l) A).take cap =
        (rs.foldl (fun l x => insertDesc x l) B).take cap
  | [], _, _, h => h
  | r :: rs, A, B, h => by
      simp only [List.foldl_cons]
      exact take_foldl_insertDesc cap rs _ _ (take_insertDesc_congr r cap A B h)

/-- Helper: a fold of bounded insertions from a sorted seed within
capacity is the truncation of the fold of plain insertions. -/
theorem foldl_classInsert_eq_take (cap : ℕ) :
    ∀ (rs : List TripletRec) (L : List TripletRec), List.Sorted hardGE L →
      L.length ≤ cap →
      rs.foldl (fun l x => classInsert cap x l) L =
        (rs.foldl (fun l x => insertDesc x l) L).take cap
  | [], L, _, hlen => (List.take_of_length_le hlen).symm
  | r :: rs, L, hs, hlen => by
      simp only [List.foldl_cons]
      rw [classInsert_eq_take cap r L hs hlen]
      rw [foldl_classInsert_eq_take cap rs _
        ((sorted_insertDesc r L hs).sublist (List.take_sublist _ _))
        (le_trans (List.length_take _ _ ▸ min_le_left _ _) (le_refl _))]
      exact take_foldl_insertDesc cap rs _ _ (by rw [List.take_take, min_self])

/-- Helper: a fold of insertions accumulates all the records. -/
theorem length_foldl_insertDesc :
    ∀ (rs : List TripletRec) (L : List TripletRec),
      (rs.foldl (fun l x => insertDesc x l) L).length = L.length + rs.length
  | [], L => by simp
  | r :: rs, L => by
      simp only [List.foldl_cons]
      rw [length_foldl_insertDesc rs _, length_insertDesc]
      simp only [List.length_cons]
      omega

/-- Helper: a fold of insertions keeps the collection sorted. -/
theorem sorted_foldl_insertDesc :
    ∀ (rs : List TripletRec) (L : List TripletRec), List.Sorted hardGE L →
      List.Sorted hardGE (rs.foldl (fun l x => insertDesc x l) L)
  | [], _, hs => hs
  | r :: rs, L, hs => by
      simp only [List.foldl_cons]
      exact sorted_foldl_insertDesc rs _ (sorted_insertDesc r L hs)

/-- Helper: a fold of insertions permutes the inserted records onto the
seed. -/
theorem perm_foldl_insertDesc :
    ∀ (rs : List TripletRec) (L : List TripletRec),
      (rs.foldl (fun l x => insertDesc x l) L).Perm (rs ++ L)
  | [], L => List.Perm.refl _
  | r :: rs, L => by
      simp only [List.foldl_cons, List.cons_append]
      exact (perm_foldl_insertDesc rs _).trans
        (((perm_insertDesc r L).append_left rs).trans List.perm_middle)

/-- Helper: feeding capacity + 1 records of pairwise distinct hardness
through bounded insertion retains exactly the top capacity by hardness,
in strictly descending order, every retained record strictly harder than
the single evicted one. -/
theorem topCap_of_distinct (cap : ℕ) (rs : List TripletRec)
    (hlen : rs.length = cap + 1)
    (hdist : rs.Pairwise (fun a b => a.loss ≠ b.loss)) :
    ∃ res mrec,
      rs.foldl (fun l x => classInsert cap x l) [] = res ∧
      res.length = cap ∧
      res.Pairwise hardGT ∧
      mrec ∈ rs ∧ (res ++ [mrec]).Perm rs ∧ (∀ x ∈ res, mrec.loss < x.loss) := by
  have hS_len : (rs.foldl (fun l x => insertDesc x l) []).length = cap + 1 := by
    rw [length_foldl_insertDesc, hlen]
    simp
  have hS_sorted : List.Sorted hardGE (rs.foldl (fun l x => insertDesc x l) []) :=
    sorted_foldl_insertDesc rs [] (List.sorted_nil)
  have hS_perm : (rs.foldl (fun l x => insertDesc x l) []).Perm rs := by
    simpa using perm_foldl_insertDesc rs []
  have hfold : rs.foldl (fun l x => classInsert cap x l) [] =
      (rs.foldl (fun l x => insertDesc x l) []).take cap :=
    foldl_classInsert_eq_take cap rs [] List.sorted_nil (Nat.zero_le cap)
  have hS_ne : rs.foldl (fun l x => insertDesc x l) [] ≠ [] := by
    intro he
    rw [he] at hS_len
    simp at hS_len
  have hS_distinct : (rs.foldl (fun l x => insertDesc x l) []).Pairwise
      (fun a b => a.loss ≠ b.loss) :=
    (hS_perm.pairwise_iff (fun hab => hab.symm)).mpr hdist
  have hS_strict : (rs.foldl (fun l x => insertDesc x l) []).Pairwise hardGT := by
    refine (hS_sorted.and hS_distinct).imp ?_
    rintro a b ⟨hle, hne⟩
    exact lt_of_le_of_ne hle (Ne.symm hne)
  have hdecomp : (rs.foldl (fun l x => insertDesc x l) []).dropLast ++
      [(rs.foldl (fun l x => insertDesc x l) []).getLast hS_ne] =
      rs.foldl (fun l x => insertDesc x l) [] :=
    List.dropLast_append_getLast hS_ne
  have hdrop_take : (rs.foldl (fun l x => insertDesc x l) []).dropLast =
      (rs.foldl (fun l x => insertDesc x l) []).take cap := by
    rw [List.dropLast_eq_take, hS_len]
    rfl
  refine ⟨(rs.foldl (fun l x => insertDesc x l) []).take cap,
    (rs.foldl (fun l x => insertDesc x l) []).getLast hS_ne, hfold, ?_, ?_, ?_, ?_, ?_⟩
  · rw [List.length_take, hS_len]
    omega
  · exact hS_strict.sublist (List.take_sublist _ _)
  · exact hS_perm.mem_iff.mp (List.getLast_mem hS_ne)
  · rw [← hdrop_take, hdecomp]
    exact hS_perm
  · intro x hx
    rw [← hdecomp] at hS_strict
    have := (List.pairwise_append.mp hS_strict).2.2
    exact this x (hdrop_take ▸ hx) _ (List.mem_singleton_self _)

/-- Helper: unpacking a successful sampler construction. -/
theorem construct_inv {nc cap : ℕ} {s0 : NHardestTripletSampler}
    (h : NHardestTripletSampler.construct nc cap = some s0) :
    0 < nc ∧ 0 < cap ∧ s0.numClasses = nc ∧ s0.capacity = cap ∧
      s0.classes = fun _ => [] := by
  unfold NHardestTripletSampler.construct at h
  by_cases hc : 0 < nc ∧ 0 < cap
  · rw [if_pos hc] at h
    have h2 := Option.some.inj h
    subst h2
    exact ⟨hc.1, hc.2, rfl, rfl, rfl⟩
  · rw [if_neg hc] at h
    exact absurd h (by simp)

/-- Helper: projecting the per-class fold of SampleNegatives onto a class
that every batch item targets. -/
theorem foldl_update_single (cap : ℕ) (c : ℕ) (classOf : ℕ × ℕ × ℕ → ℕ) :
    ∀ (batch : List (ℚ × ℚ × ℚ × (ℕ × ℕ × ℕ))) (f : ℕ → List TripletRec),
      (∀ item ∈ batch, classOf item.2.2.2 = c) →
      (batch.foldl
        (fun g item =>
          Function.update g (classOf item.2.2.2)
            (classInsert cap
              { triplet := item.2.2.2, loss := item.2.2.1, margin := item.1 - item.2.1 }
              (g (classOf item.2.2.2))))
        f) c =
      (batchRecords batch).foldl (fun l r => classInsert cap r l) (f c)
  | [], _, _ => rfl
  | item :: rest, f, h => by
      have hcls : classOf item.2.2.2 = c := h item (List.mem_cons_self _ _)
      simp only [List.foldl_cons]
      rw [foldl_update_single cap c classOf rest _
        (fun i hi => h i (List.mem_cons_of_mem _ hi))]
      rw [hcls, Function.update_same]
      simp [batchRecords]

/-- Helper: the per-class fold of SampleNegatives preserves the length
bound on every class. -/
theorem foldl_update_length_le (cap : ℕ) (classOf : ℕ × ℕ × ℕ → ℕ) :
    ∀ (batch : List (ℚ × ℚ × ℚ × (ℕ × ℕ × ℕ))) (f : ℕ → List TripletRec),
      (∀ c2, (f c2).length ≤ cap) →
      ∀ c2, ((batch.foldl
        (fun g item =>
          Function.update g (classOf item.2.2.2)
            (classInsert cap
              { triplet := item.2.2.2, loss := item.2.2.1, margin := item.1 - item.2.1 }
              (g (classOf item.2.2.2))))
        f) c2).length ≤ cap
  | [], _, hf => hf
  | item :: rest, f, hf => by
      simp only [List.foldl_cons]
      apply foldl_update_length_le cap classOf rest
      intro c2
      by_cases hc2 : c2 = classOf item.2.2.2
      · subst hc2
        rw [Function.update_same]
        exact classInsert_length_le cap _ _ (hf _)
      · rw [Function.update_noteq hc2]
        exact hf c2

/-- Helper: a sequence of SampleNegatives calls preserves the capacity
field and the per-class length bound. -/
theorem foldl_sampleNegatives_invariant (classOf : ℕ × ℕ × ℕ → ℕ) :
    ∀ (batches : List (List (ℚ × ℚ × ℚ × (ℕ × ℕ × ℕ)))) (s : NHardestTripletSampler),
      (∀ c2, (s.classes c2).length ≤ s.capacity) →
      (∀ c2, ((batches.foldl
          (fun t b => t.SampleNegatives classOf b) s).classes c2).length ≤ s.capacity)
  | [], _, hs => hs
  | b :: bs, s, hs => by
      simp only [List.foldl_cons]
      have hstep : ∀ c2,
          ((s.SampleNegatives classOf b).classes c2).length ≤
            (s.SampleNegatives classOf b).capacity := by
        intro c2
        exact foldl_update_length_le s.capacity classOf b s.classes hs c2
      exact fun c2 =>
        foldl_sampleNegatives_invariant classOf bs (s.SampleNegatives classOf b) hstep c2

/-- Helper: against the all-ones target, each margin-ranking term
max(0, margin - y*(dista - distb)) becomes max(0, margin + (distb -
dista)), the direction requiring dista to exceed distb. -/
theorem zipWith_loss_ones (m : ℚ) :
    ∀ (x1 x2 : List ℚ), x1.length = x2.length →
      List.zipWith (fun d t => max 0 (m - t * d))
          (List.zipWith (fun a b => a - b) x1 x2) (List.replicate x1.length 1) =
        List.zipWith (fun a b => max 0 (m + (b - a))) x1 x2
  | [], [], _ => rfl
  | [], b :: l2, h => by simp at h
  | a :: l1, [], h => by simp at h
  | a :: l1, b :: l2, h => by
      have hlen : l1.length = l2.length := by simpa using h
      simp only [List.length_cons, List.replicate_succ, List.zipWith_cons_cons]
      rw [zipWith_loss_ones m l1 l2 hlen]
      congr 1
      ring_nf

/-- C10: in both the training batch loop and the validation loop the
target passed to MarginRankingLoss is the all-ones vector of the size of
dista, and consequently the computed loss is the mean of
max(0, margin + distb - dista): dista must exceed distb by the margin,
never the opposite direction. -/
theorem C10_target_always_ones :
    (∀ n : ℕ, trainTarget n = List.replicate n 1 ∧ testTarget n = List.replicate n 1 ∧
      (trainTarget n).length = n ∧ (testTarget n).length = n ∧
      (∀ t ∈ trainTarget n, t = 1) ∧ (∀ t ∈ testTarget n, t = 1)) ∧
    (∀ (m : ℚ) (dista distb : List ℚ), dista.length = distb.length →
      trainBatchLoss m dista distb =
        (List.zipWith (fun a b => max 0 (m + (b - a))) dista distb).sum /
          (dista.length : ℚ) ∧
      testBatchLoss m dista distb =
        (List.zipWith (fun a b => max 0 (m + (b - a))) dista distb).sum /
          (dista.length : ℚ)) := by
  constructor
  · intro n
    refine ⟨rfl, rfl, List.length_replicate n 1, List.length_replicate n 1, ?_, ?_⟩ <;>
      exact fun t ht => List.eq_of_mem_replicate ht
  · intro m dista distb h
    have hloss : marginRankingLoss m dista distb (List.replicate dista.length 1) =
        (List.zipWith (fun a b => max 0 (m + (b - a))) dista distb).sum /
          (dista.length : ℚ) := by
      unfold marginRankingLoss
      rw [zipWith_loss_ones m dista distb h]
      show (List.zipWith (fun a b => max 0 (m + (b - a))) dista distb).sum /
          (((List.zipWith (fun a b => max 0 (m + (b - a))) dista distb).length : ℕ) : ℚ) = _
      rw [List.length_zipWith, h, min_self]
    exact ⟨hloss, hloss⟩

/-- C10, witness: concrete batch with margin 1/5, dista = [1, 2] and
distb = [2, 1]. -/
theorem C10_target_always_ones_witness :
    trainBatchLoss (1 / 5) [1, 2] [2, 1] =
      (List.zipWith (fun a b => max 0 (1 / 5 + (b - a))) [(1 : ℚ), 2] [2, 1]).sum /
        (([(1 : ℚ), 2].length : ℕ) : ℚ) :=
  (C10_target_always_ones.2 (1 / 5) [1, 2] [2, 1] rfl).1

/-- C8: each phase begins with freshly reset meters: the three meters of
Train and the two meters of TestTriplets all start as newly constructed
AverageMeters with last value, sum, count and average equal to zero, and
reset always produces that state. -/
theorem C8_meters_reset_per_phase :
    trainInitialMeters =
      ({ val := 0, avg := 0, sum := 0, count := 0 },
       { val := 0, avg := 0, sum := 0, count := 0 },
       { val := 0, avg := 0, sum := 0, count := 0 }) ∧
    testInitialMeters =
      ({ val := 0, avg := 0, sum := 0, count := 0 },
       { val := 0, avg := 0, sum := 0, count := 0 }) ∧
    (∀ m : AverageMeter, m.reset = { val := 0, avg := 0, sum := 0, count := 0 }) :=
  ⟨rfl, rfl, fun _ => rfl⟩

/-- C7 (sampler modelled from the spec, hard_mining not being in the
sources): for every class and every sequence of SampleNegatives calls the
per-class collection never exceeds the construction capacity; an
insertion arriving at capacity leaves the collection unchanged unless the
new hardness exceeds the least retained hardness, in which case it
displaces exactly that least-hard record; and after inserting
capacity + 1 records of pairwise distinct hardness for one class,
HardestForClass returns exactly the top capacity records by hardness in
strictly descending order. -/
theorem C7_sampler_capacity_topk :
    (∀ (nc cap : ℕ) (s0 : NHardestTripletSampler),
      NHardestTripletSampler.construct nc cap = some s0 →
      ∀ (classOf : ℕ × ℕ × ℕ → ℕ)
        (batches : List (List (ℚ × ℚ × ℚ × (ℕ × ℕ × ℕ)))) (c : ℕ),
        ((batches.foldl (fun t b => t.SampleNegatives classOf b) s0).classes c).length
          ≤ cap) ∧
    (∀ (cap : ℕ) (r : TripletRec) (l : List TripletRec) (m : TripletRec),
      List.Sorted hardGE l → l.length = cap → l.getLast? = some m →
      ((r.loss ≤ m.loss → classInsert cap r l = l) ∧
       (m.loss < r.loss → (classInsert cap r l).Perm (r :: l.dropLast)))) ∧
    (∀ (nc cap : ℕ) (s0 : NHardestTripletSampler),
      NHardestTripletSampler.construct nc cap = some s0 →
      ∀ (classOf : ℕ × ℕ × ℕ → ℕ) (c : ℕ), c < nc →
      ∀ (batch : List (ℚ × ℚ × ℚ × (ℕ × ℕ × ℕ))),
        (∀ item ∈ batch, classOf item.2.2.2 = c) →
        batch.length = cap + 1 →
        (batchRecords batch).Pairwise (fun a b => a.loss ≠ b.loss) →
        ∃ res mrec,
          (s0.SampleNegatives classOf batch).HardestForClass c = some res ∧
          res.length = cap ∧
          res.Pairwise hardGT ∧
          mrec ∈ batchRecords batch ∧
          (res ++ [mrec]).Perm (batchRecords batch) ∧
          (∀ x ∈ res, mrec.loss < x.loss)) := by
  refine ⟨?_, ?_, ?_⟩
  · intro nc cap s0 hcons classOf batches c
    obtain ⟨-, -, -, hcap, hclasses⟩ := construct_inv hcons
    have hinit : ∀ c2, (s0.classes c2).length ≤ s0.capacity := by
      intro c2
      rw [hclasses]
      simp
    have hbound := foldl_sampleNegatives_invariant classOf batches s0 hinit c
    rwa [hcap] at hbound
  · intro cap r l m hs hlen hlast
    have hnotlt : ¬ l.length < cap := by
      rw [hlen]
      exact lt_irrefl cap
    constructor
    · intro hle
      rw [classInsert, if_neg hnotlt, hlast, Option.elim_some, if_neg (not_lt.mpr hle)]
    · intro hlt2
      rw [classInsert, if_neg hnotlt, hlast, Option.elim_some, if_pos hlt2]
      exact perm_insertDesc r l.dropLast
  · intro nc cap s0 hcons classOf c hc batch hcls hblen hdist
    obtain ⟨-, -, hnum, hcap, hclasses⟩ := construct_inv hcons
    have hreclen : (batchRecords batch).length = cap + 1 := by
      rw [batchRecords, List.length_map, hblen]
    obtain ⟨res, mrec, hfold, hrlen, hpair, hmem, hperm, hltall⟩ :=
      topCap_of_distinct cap (batchRecords batch) hreclen hdist
    refine ⟨res, mrec, ?_, hrlen, hpair, hmem, hperm, hltall⟩
    have hlt_nc : c < (s0.SampleNegatives classOf batch).numClasses := by
      have hn : (s0.SampleNegatives classOf batch).numClasses = s0.numClasses := rfl
      rw [hn, hnum]
      exact hc
    rw [NHardestTripletSampler.HardestForClass, if_pos hlt_nc]
    have hcc : (s0.SampleNegatives classOf batch).classes c =
        (batchRecords batch).foldl (fun l r => classInsert s0.capacity r l)
          (s0.classes c) :=
      foldl_update_single s0.capacity c classOf batch s0.classes hcls
    rw [hcc, hclasses, hcap]
    simpa using congrArg some hfold

/-- C7, witness: capacity 2, one class, a batch of three records with
losses 1, 3, 2, and the at-capacity insertion of a record of loss 2 into
a sorted collection with losses 3 and 1. -/
theorem C7_sampler_capacity_topk_witness :
    (([[((1 : ℚ), (1 : ℚ), (1 : ℚ), ((0, 0, 1) : ℕ × ℕ × ℕ)),
        ((1 : ℚ), (1 : ℚ), (3 : ℚ), ((0, 0, 2) : ℕ × ℕ × ℕ)),
        ((1 : ℚ), (1 : ℚ), (2 : ℚ), ((0, 0, 3) : ℕ × ℕ × ℕ))]].foldl
        (fun (t : NHardestTripletSampler) b => t.SampleNegatives (fun _ => 0) b)
        { numClasses := 2, capacity := 2, classes := fun _ => [] }).classes 0).length
          ≤ 2 ∧
    ((TripletRec.mk (0, 0, 3) 2 0).loss ≤ (TripletRec.mk (0, 0, 2) 1 0).loss →
      classInsert 2 (TripletRec.mk (0, 0, 3) 2 0)
          [TripletRec.mk (0, 0, 1) 3 0, TripletRec.mk (0, 0, 2) 1 0] =
        [TripletRec.mk (0, 0, 1) 3 0, TripletRec.mk (0, 0, 2) 1 0]) ∧
    ((TripletRec.mk (0, 0, 2) 1 0).loss < (TripletRec.mk (0, 0, 3) 2 0).loss →
      (classInsert 2 (TripletRec.mk (0, 0, 3) 2 0)
          [TripletRec.mk (0, 0, 1) 3 0, TripletRec.mk (0, 0, 2) 1 0]).Perm
        (TripletRec.mk (0, 0, 3) 2 0 ::
          [TripletRec.mk (0, 0, 1) 3 0, TripletRec.mk (0, 0, 2) 1 0].dropLast)) ∧
    ∃ res mrec,
      (NHardestTripletSampler.SampleNegatives
          { numClasses := 2, capacity := 2, classes := fun _ => [] } (fun _ => 0)
          [((1 : ℚ), (1 : ℚ), (1 : ℚ), ((0, 0, 1) : ℕ × ℕ × ℕ)),
           ((1 : ℚ), (1 : ℚ), (3 : ℚ), ((0, 0, 2) : ℕ × ℕ × ℕ)),
           ((1 : ℚ), (1 : ℚ), (2 : ℚ), ((0, 0, 3) : ℕ × ℕ × ℕ))]).HardestForClass 0 =
        some res ∧
      res.length = 2 ∧
      res.Pairwise hardGT ∧
      mrec ∈ batchRecords
          [((1 : ℚ), (1 : ℚ), (1 : ℚ), ((0, 0, 1) : ℕ × ℕ × ℕ)),
           ((1 : ℚ), (1 : ℚ), (3 : ℚ), ((0, 0, 2) : ℕ × ℕ × ℕ)),
           ((1 : ℚ), (1 : ℚ), (2 : ℚ), ((0, 0, 3) : ℕ × ℕ × ℕ))] ∧
      (res ++ [mrec]).Perm (batchRecords
          [((1 : ℚ), (1 : ℚ), (1 : ℚ), ((0, 0, 1) : ℕ × ℕ × ℕ)),
           ((1 : ℚ), (1 : ℚ), (3 : ℚ), ((0, 0, 2) : ℕ × ℕ × ℕ)),
           ((1 : ℚ), (1 : ℚ), (2 : ℚ), ((0, 0, 3) : ℕ × ℕ × ℕ))]) ∧
      (∀ x ∈ res, mrec.loss < x.loss) := by
  refine ⟨?_, ?_, ?_, ?_⟩
  · exact C7_sampler_capacity_topk.1 2 2
      { numClasses := 2, capacity := 2, classes := fun _ => [] } rfl (fun _ => 0)
      [[((1 : ℚ), (1 : ℚ), (1 : ℚ), ((0, 0, 1) : ℕ × ℕ × ℕ)),
        ((1 : ℚ), (1 : ℚ), (3 : ℚ), ((0, 0, 2) : ℕ × ℕ × ℕ)),
        ((1 : ℚ), (1 : ℚ), (2 : ℚ), ((0, 0, 3) : ℕ × ℕ × ℕ))]] 0
  · exact (C7_sampler_capacity_topk.2.1 2 (TripletRec.mk (0, 0, 3) 2 0)
      [TripletRec.mk (0, 0, 1) 3 0, TripletRec.mk (0, 0, 2) 1 0]
      (TripletRec.mk (0, 0, 2) 1 0) (by decide) rfl rfl).1
  · exact (C7_sampler_capacity_topk.2.1 2 (TripletRec.mk (0, 0, 3) 2 0)
      [TripletRec.mk (0, 0, 1) 3 0, TripletRec.mk (0, 0, 2) 1 0]
      (TripletRec.mk (0, 0, 2) 1 0) (by decide) rfl rfl).2
  · exact C7_sampler_capacity_topk.2.2 2 2
      { numClasses := 2, capacity := 2, classes := fun _ => [] } rfl (fun _ => 0) 0
      (by decide)
      [((1 : ℚ), (1 : ℚ), (1 : ℚ), ((0, 0, 1) : ℕ × ℕ × ℕ)),
       ((1 : ℚ), (1 : ℚ), (3 : ℚ), ((0, 0, 2) : ℕ × ℕ × ℕ)),
       ((1 : ℚ), (1 : ℚ), (2 : ℚ), ((0, 0, 3) : ℕ × ℕ × ℕ))]
      (fun _ _ => rfl) rfl (by decide)

/-- Helper: one-step unfolding of runEpochs. -/
theorem runEpochs_succ {σ : Type} (tf : ℕ) (u : ℕ → σ → σ) (rst : σ → σ)
    (e0 : ℕ) (s : σ) (k : ℕ) :
    runEpochs tf u rst e0 s (k + 1) =
      (if (e0 + k) % tf = 0 then rst (u (e0 + k) (runEpochs tf u rst e0 s k))
       else u (e0 + k) (runEpochs tf u rst e0 s k)) := rfl

/-- Helper: running k + 1 epochs from e0 is running k epochs from e0 + 1
after performing the first epoch. -/
theorem runEpochs_shift {σ : Type} (tf : ℕ) (u : ℕ → σ → σ) (rst : σ → σ)
    (e0 : ℕ) (s : σ) :
    ∀ k : ℕ, runEpochs tf u rst e0 s (k + 1) =
      runEpochs tf u rst (e0 + 1)
        (if e0 % tf = 0 then rst (u e0 s) else u e0 s) k
  | 0 => by
      rw [runEpochs_succ]
      simp [runEpochs]
  | k + 1 => by
      rw [runEpochs_succ, runEpochs_shift tf u rst e0 s k, runEpochs_succ]
      have harith : e0 + (k + 1) = (e0 + 1) + k := by omega
      rw [harith]

/-- Helper: closed form of the epoch loop started at epoch e with state
s: the loop emits one block per remaining epoch, each reading the state
accumulated by the preceding epochs, and ends in the state after all of
them. -/
theorem mainLoop_closed {σ : Type} (vf tf : ℕ) (u : ℕ → σ → σ) (rst : σ → σ) :
    ∀ (n e : ℕ) (s : σ),
      mainLoop vf tf u rst e n s =
        (((List.range n).map (e + ·)).flatMap
          (fun k =>
            [TrainEvent.train k]
              ++ (if k % vf = 0 then [TrainEvent.validate k] else [])
              ++ (if k % tf = 0 then
                    [TrainEvent.regenerate k (u k (runEpochs tf u rst e s (k - e))),
                     TrainEvent.samplerReset k]
                  else [])),
         runEpochs tf u rst e s n)
  | 0, e, s => by
      simp [mainLoop, runEpochs]
  | n + 1, e, s => by
      simp only [mainLoop]
      rw [mainLoop_closed vf tf u rst n (e + 1)
        (if e % tf = 0 then rst (u e s) else u e s)]
      have hblocks :
          ((List.range n).map ((e + 1) + ·)).flatMap
            (fun k =>
              [TrainEvent.train k]
                ++ (if k % vf = 0 then [TrainEvent.validate k] else [])
                ++ (if k % tf = 0 then
                      [TrainEvent.regenerate k
                        (u k (runEpochs tf u rst (e + 1)
                          (if e % tf = 0 then rst (u e s) else u e s) (k - (e + 1)))),
                       TrainEvent.samplerReset k]
                    else [])) =
          ((List.range n).map ((e + 1) + ·)).flatMap
            (fun k =>
              [TrainEvent.train k]
                ++ (if k % vf = 0 then [TrainEvent.validate k] else [])
                ++ (if k % tf = 0 then
                      [TrainEvent.regenerate k (u k (runEpochs tf u rst e s (k - e))),
                       TrainEvent.samplerReset k]
                    else [])) := by
        refine List.flatMap_congr ?_
        intro k hk
        obtain ⟨j, hj, rfl⟩ := List.mem_map.mp hk
        have h1 : (e + 1) + j - (e + 1) = j := by omega
        have h2 : (e + 1) + j - e = j + 1 := by omega
        rw [h1, h2, runEpochs_shift]
      have hmap : ((List.range n).map Nat.succ).map (e + ·) =
          (List.range n).map ((e + 1) + ·) := by
        rw [List.map_map]
        exact List.map_congr_left (fun j _ => by
          simp only [Function.comp_apply]
          omega)
      rw [Prod.mk.injEq]
      constructor
      · rw [List.range_succ_eq_map, List.map_cons, List.flatMap_cons, hmap, hblocks]
        have he0 : e + 0 = e := Nat.add_zero e
        rw [he0, Nat.sub_self]
        rfl
      · rw [runEpochs_shift]

/-- Helper: each epoch block contains exactly one train event. -/
theorem countP_train_epochBlock {σ : Type} (vf tf : ℕ) (u : ℕ → σ → σ)
    (rst : σ → σ) (s0 : σ) (e : ℕ) :
    (epochBlock vf tf u rst s0 e).countP isTrainEv = 1 := by
  unfold epochBlock
  by_cases h1 : e % vf = 0 <;> by_cases h2 : e % tf = 0 <;>
    simp [h1, h2, isTrainEv]

/-- Helper: a validation event occurs in an epoch block exactly for that
epoch when the epoch is a multiple of the validation frequency. -/
theorem validate_mem_epochBlock {σ : Type} (vf tf : ℕ) (u : ℕ → σ → σ)
    (rst : σ → σ) (s0 : σ) (e k : ℕ) :
    TrainEvent.validate e ∈ epochBlock vf tf u rst s0 k ↔ (e = k ∧ k % vf = 0) := by
  unfold epochBlock
  by_cases h1 : k % vf = 0 <;> by_cases h2 : k % tf = 0 <;>
    simp [h1, h2]

/-- Helper: a regeneration event occurs in an epoch block exactly for
that epoch when the epoch is a multiple of the triplet frequency. -/
theorem regen_mem_epochBlock {σ : Type} (vf tf : ℕ) (u : ℕ → σ → σ)
    (rst : σ → σ) (s0 : σ) (e k : ℕ) :
    (∃ st, TrainEvent.regenerate e st ∈ epochBlock vf tf u rst s0 k) ↔
      (e = k ∧ k % tf = 0) := by
  unfold epochBlock
  by_cases h1 : k % vf = 0 <;> by_cases h2 : k % tf = 0 <;>
    simp [h1, h2]

/-- C1: for every run of the epoch loop with positive val_freq and
triplet_freq, the trace is exactly one block per epoch 1..epochs, in
order; each block is the train pass, then a validation pass iff
epoch % val_freq == 0, then, iff epoch % triplet_freq == 0, a
regeneration reading the sampler state accumulated through that epoch
immediately followed by the sampler reset; the loop performs exactly
`epochs` train passes and terminates in the state after all epochs. -/
theorem C1_epoch_loop_structure (σ : Type) (epochs valFreq tripletFreq : ℕ)
    (trainUpd : ℕ → σ → σ) (rst : σ → σ) (s0 : σ)
    (_hvf : 0 < valFreq) (_htf : 0 < tripletFreq) :
    (mainTrace epochs valFreq tripletFreq trainUpd rst s0).1 =
      ((List.range epochs).map (1 + ·)).flatMap
        (epochBlock valFreq tripletFreq trainUpd rst s0) ∧
    (mainTrace epochs valFreq tripletFreq trainUpd rst s0).2 =
      runEpochs tripletFreq trainUpd rst 1 s0 epochs ∧
    (mainTrace epochs valFreq tripletFreq trainUpd rst s0).1.countP isTrainEv
      = epochs ∧
    (∀ e : ℕ, 1 ≤ e → e ≤ epochs → e % tripletFreq = 0 →
      List.IsInfix
        [TrainEvent.regenerate e
           (trainUpd e (runEpochs tripletFreq trainUpd rst 1 s0 (e - 1))),
         TrainEvent.samplerReset e]
        (mainTrace epochs valFreq tripletFreq trainUpd rst s0).1) ∧
    (∀ e : ℕ,
      TrainEvent.validate e ∈ (mainTrace epochs valFreq tripletFreq trainUpd rst s0).1
        ↔ (1 ≤ e ∧ e ≤ epochs ∧ e % valFreq = 0)) ∧
    (∀ e : ℕ,
      (∃ st, TrainEvent.regenerate e st ∈
          (mainTrace epochs valFreq tripletFreq trainUpd rst s0).1)
        ↔ (1 ≤ e ∧ e ≤ epochs ∧ e % tripletFreq = 0)) := by
  have hclosed := mainLoop_closed valFreq tripletFreq trainUpd rst epochs 1 s0
  have htrace : (mainTrace epochs valFreq tripletFreq trainUpd rst s0).1 =
      ((List.range epochs).map (1 + ·)).flatMap
        (epochBlock valFreq tripletFreq trainUpd rst s0) := by
    unfold mainTrace
    rw [hclosed]
    rfl
  have hstate : (mainTrace epochs valFreq tripletFreq trainUpd rst s0).2 =
      runEpochs tripletFreq trainUpd rst 1 s0 epochs := by
    unfold mainTrace
    rw [hclosed]
  refine ⟨htrace, hstate, ?_, ?_, ?_, ?_⟩
  · rw [htrace]
    have hflat : ((List.range epochs).map (1 + ·)).flatMap
        (epochBlock valFreq tripletFreq trainUpd rst s0) =
        (((List.range epochs).map (1 + ·)).map
          (epochBlock valFreq tripletFreq trainUpd rst s0)).flatten := rfl
    rw [hflat, List.countP_flatten, List.map_map]
    have hconst : ((List.range epochs).map (1 + ·)).map
        (List.countP isTrainEv ∘ epochBlock valFreq tripletFreq trainUpd rst s0) =
        ((List.range epochs).map (1 + ·)).map (fun _ => 1) :=
      List.map_congr_left (fun k _ => by
        simp only [Function.comp_apply]
        exact countP_train_epochBlock valFreq tripletFreq trainUpd rst s0 k)
    rw [hconst]
    simp [Function.comp_def, List.map_const', List.sum_replicate]
  · intro e he1 he2 he3
    rw [htrace]
    have hmem : epochBlock valFreq tripletFreq trainUpd rst s0 e ∈
        ((List.range epochs).map (1 + ·)).map
          (epochBlock valFreq tripletFreq trainUpd rst s0) :=
      List.mem_map_of_mem _
        (List.mem_map.mpr ⟨e - 1, List.mem_range.mpr (by omega), by omega⟩)
    have hinf1 : List.IsInfix (epochBlock valFreq tripletFreq trainUpd rst s0 e)
        (((List.range epochs).map (1 + ·)).flatMap
          (epochBlock valFreq tripletFreq trainUpd rst s0)) :=
      List.infix_of_mem_flatten hmem
    refine List.IsInfix.trans ?_ hinf1
    refine ⟨[TrainEvent.train e]
      ++ (if e % valFreq = 0 then [TrainEvent.validate e] else []), [], ?_⟩
    simp [epochBlock, he3]
  · intro e
    rw [htrace]
    constructor
    · intro hmem
      obtain ⟨k, hk, hin⟩ := List.mem_flatMap.mp hmem
      obtain ⟨j, hj, rfl⟩ := List.mem_map.mp hk
      obtain ⟨heq, hvfk⟩ :=
        (validate_mem_epochBlock valFreq tripletFreq trainUpd rst s0 e (1 + j)).mp hin
      have hj2 := List.mem_range.mp hj
      exact ⟨by omega, by omega, by rw [heq]; exact hvfk⟩
    · rintro ⟨he1, he2, he3⟩
      refine List.mem_flatMap.mpr ⟨e, ?_,
        (validate_mem_epochBlock valFreq tripletFreq trainUpd rst s0 e e).mpr
          ⟨rfl, he3⟩⟩
      exact List.mem_map.mpr ⟨e - 1, List.mem_range.mpr (by omega), by omega⟩
  · intro e
    rw [htrace]
    constructor
    · rintro ⟨st, hmem⟩
      obtain ⟨k, hk, hin⟩ := List.mem_flatMap.mp hmem
      obtain ⟨j, hj, rfl⟩ := List.mem_map.mp hk
      obtain ⟨heq, htfk⟩ :=
        (regen_mem_epochBlock valFreq tripletFreq trainUpd rst s0 e (1 + j)).mp
          ⟨st, hin⟩
      have hj2 := List.mem_range.mp hj
      exact ⟨by omega, by omega, by rw [heq]; exact htfk⟩
    · rintro ⟨he1, he2, he3⟩
      obtain ⟨st, hst⟩ :=
        (regen_mem_epochBlock valFreq tripletFreq trainUpd rst s0 e e).mpr ⟨rfl, he3⟩
      refine ⟨st, List.mem_flatMap.mpr ⟨e, ?_, hst⟩⟩
      exact List.mem_map.mpr ⟨e - 1, List.mem_range.mpr (by omega), by omega⟩

/-- C1, witness: three epochs with val_freq 2 and triplet_freq 3 over a
counter sampler state; the trace is train 1; train 2, validate 2;
train 3, regenerate 3 (reading the accumulated state 6), reset 3. -/
theorem C1_epoch_loop_structure_witness :
    (mainTrace 3 2 3 (fun e s => s + e) (fun _ => 0) (0 : ℕ)).1.countP isTrainEv
      = 3 ∧
    List.IsInfix
      [TrainEvent.regenerate 3
         (runEpochs 3 (fun e s => s + e) (fun _ => 0) 1 (0 : ℕ) 2 + 3),
       TrainEvent.samplerReset 3]
      (mainTrace 3 2 3 (fun e s => s + e) (fun _ => 0) (0 : ℕ)).1 ∧
    (mainTrace 3 2 3 (fun e s => s + e) (fun _ => 0) (0 : ℕ)).1 =
      [TrainEvent.train 1, TrainEvent.train 2, TrainEvent.validate 2,
       TrainEvent.train 3, TrainEvent.regenerate 3 (6 : ℕ),
       TrainEvent.samplerReset 3] := by
  refine ⟨?_, ?_, ?_⟩
  · exact (C1_epoch_loop_structure ℕ 3 2 3 (fun e s => s + e) (fun _ => 0) 0
      (by decide) (by decide)).2.2.1
  · exact (C1_epoch_loop_structure ℕ 3 2 3 (fun e s => s + e) (fun _ => 0) 0
      (by decide) (by decide)).2.2.2.1 3 (by decide) (by decide) (by decide)
  · rfl
